import Mathlib

/-!
Verification of the media analyzer of MediafileAutoFormatter.

The development shallowly embeds the two source files
`src/analyzer/media_analyzer.py` and `src/restructor/subtitle_extractor.py`.
Python strings are Lean `String`s and all character-level operations
(splitting, substring search, replacement) are implemented structurally on
`String.data` so that every definition is executable and kernel-reducible.
Python `None`-able results become `Option`, raised exceptions become
`Except Unit` results, and Python `dict`s (insertion ordered, last write
wins) become association lists with an explicit insert-or-replace
operation.

Parts of the repository that the analyzer uses but that are outside the
two provided source files (the `File`/`Folder` tree model, the `Token`
model, the season-alias constant and the suffix-stripping helper of the
formatter package) are modelled from the specification; each such
definition carries a doc comment starting with `Modelled from the spec:`.
-/

/-- Modelled from the spec: file-type tags of tree leaves
(`src/constants.py` is not provided); a file is MEDIA, SUBTITLE,
ARCHIVED_SUBTITLE or OTHER. -/
inductive FileType : Type where
  | MEDIA : FileType
  | SUBTITLE : FileType
  | ARCHIVED_SUBTITLE : FileType
  | OTHER : FileType
deriving DecidableEq, Repr

/-- Modelled from the spec: a leaf of the tree (`src/model/file.py` is not
provided) exposes its display title and its file type.  The absolute path
plays no role in the analyzed claims and is omitted. -/
structure MFile where
  title : String
  fileType : FileType
deriving DecidableEq, Repr

/-- Modelled from the spec: an interior node (`src/model/folder.py` is not
provided) exposes a title, its direct files and its direct subfolders,
both in fixed order.  The source's `get_structs` interleaves both kinds;
the analyzer only ever filters it down to the subfolders, so the model
keeps the two ordered lists. -/
inductive Folder : Type where
  | node : String → List MFile → List Folder → Folder

/-- Title accessor (`Folder.get_title`). -/
def Folder.title : Folder → String
  | .node t _ _ => t

/-- Direct files accessor (`Folder.get_files`). -/
def Folder.getFiles : Folder → List MFile
  | .node _ fs _ => fs

/-- Direct subfolders accessor (`Folder.get_folders`). -/
def Folder.getFolders : Folder → List Folder
  | .node _ _ ds => ds

/-- A file counts as a subtitle when its type is SUBTITLE or
ARCHIVED_SUBTITLE (the pair used by `_get_subtitle_file` and by the
containment query). -/
def is_subtitle_type (t : FileType) : Bool :=
  t == FileType.SUBTITLE || t == FileType.ARCHIVED_SUBTITLE

mutual

/-- Modelled from the spec: the tree provider's recursive containment
query for subtitle files (`Folder.contains_subtitle_file`): some file in
the folder's entire subtree is a subtitle or archived subtitle. -/
def contains_subtitle_file : Folder → Bool
  | .node _ fs ds =>
      fs.any (fun f => is_subtitle_type f.fileType) || folders_contain_subtitle ds

/-- Helper of `contains_subtitle_file` on a list of subfolders. -/
def folders_contain_subtitle : List Folder → Bool
  | [] => false
  | d :: ds => contains_subtitle_file d || folders_contain_subtitle ds

end

/-- Modelled from the spec: the tree provider's count of direct files of a
given type (`Folder.get_number_of_files_by_type`). -/
def files_of_type_count (folder : Folder) (t : FileType) : Nat :=
  (folder.getFiles.filter (fun f => f.fileType == t)).length

/-! ### Character-level string helpers

Python string operations used by the analyzer, implemented structurally
on `List Char`. -/

/-- Python `str.split(" ")`: split on every single occurrence of the
separator, keeping empty pieces ("" splits to [""]). -/
def split_on_char (sep : Char) : List Char → List (List Char)
  | [] => [[]]
  | c :: rest =>
    match split_on_char sep rest with
    | [] => [[]]
    | w :: ws => if c = sep then [] :: w :: ws else (c :: w) :: ws

/-- `lead_matches p s` is true when `p` is a leading block of `s`
(Python `s.startswith(p)`). -/
def lead_matches : List Char → List Char → Bool
  | [], _ => true
  | _ :: _, [] => false
  | p :: ps, c :: cs => p == c && lead_matches ps cs

/-- Python `sub in s`: substring containment. -/
def has_substr (s pat : List Char) : Bool :=
  if lead_matches pat s then true
  else
    match s with
    | [] => false
    | _ :: rest => has_substr rest pat

/-- Scanning state of Python `str.replace(pat, "")`: while `skip` is
positive the scanner is inside a just-matched occurrence and only drops
characters; at `skip = 0` it tries to match `pat` at the current
position (left to right, non-overlapping). -/
def remove_all_go (pat : List Char) : List Char → Nat → List Char
  | [], _ => []
  | _ :: rest, skip + 1 => remove_all_go pat rest skip
  | c :: rest, 0 =>
    if lead_matches pat (c :: rest) then remove_all_go pat rest (pat.length - 1)
    else c :: remove_all_go pat rest 0

/-- Python `s.replace(pat, "")`: delete every non-overlapping occurrence
of `pat`, scanning left to right; for the empty pattern Python inserts
the empty replacement everywhere, leaving `s` unchanged. -/
def remove_all (s pat : List Char) : List Char :=
  if pat.isEmpty then s else remove_all_go pat s 0

/-- First maximal run of decimal digits of the string, scanning left to
right (the first match of Python `re.finditer(r"[0-9]+", str)`). -/
def first_digit_run : List Char → Option (List Char)
  | [] => none
  | c :: rest =>
    if c.isDigit then some (c :: rest.takeWhile Char.isDigit)
    else first_digit_run rest

/-- Python `int()` on a run of decimal digits. -/
def digits_to_nat (ds : List Char) : Nat :=
  ds.foldl (fun n c => n * 10 + (c.toNat - 48)) 0

/-- Python `str.isnumeric()` restricted to ASCII input: nonempty and all
decimal digits. -/
def is_numeric_str (s : String) : Bool :=
  !s.data.isEmpty && s.data.all Char.isDigit

/-- An `S<digits>E<digits>` match anchored at the start of the character
list: the digits after `E` of the match, if the pattern matches here.
Both digit runs are maximal, as with the greedy regex quantifier. -/
def se_match_at (s : List Char) : Option (List Char) :=
  match s with
  | 'S' :: rest =>
    let ds := rest.takeWhile Char.isDigit
    if ds.isEmpty then none
    else
      match rest.drop ds.length with
      | 'E' :: rest2 =>
        let es := rest2.takeWhile Char.isDigit
        if es.isEmpty then none else some es
      | _ => none
  | _ => none

/-- Digits after `E` of the leftmost `S[0-9]+E[0-9]+` match of the string
(the first match of `re.finditer(r"S[0-9]+E[0-9]+", str)`). -/
def find_se : List Char → Option (List Char)
  | [] => none
  | c :: rest =>
    match se_match_at (c :: rest) with
    | some es => some es
    | none => find_se rest

/-- Python ASCII lowering (`str.lower` on the alias vocabulary in use). -/
def str_lower (s : String) : String :=
  String.mk (s.data.map Char.toLower)

/-! ### Naming heuristics (`media_analyzer.py`, module level) -/

/-- Modelled from the spec: the fixed season-alias vocabulary
(`src/constants.py` `SeasonAlias.SEASON_ALIASES` is not provided); the
spec names "season" and "s0" as example members. -/
def SEASON_ALIASES : List String := ["season", "s0"]

/-- `contains_season_keyword`: some alias is a substring of the lowered
name. -/
def contains_season_keyword (s : String) : Bool :=
  SEASON_ALIASES.any (fun al => has_substr (str_lower s).data al.data)

/-- `_extract_number_from_string`: value of the first maximal digit run,
if any digit occurs. -/
def extract_number_from_string (s : String) : Option Nat :=
  (first_digit_run s.data).map digits_to_nat

/-- `extract_season_index`: `None` without a season keyword, else the
first digit-run value (still `None` when the name has no digits). -/
def extract_season_index (folder_name : String) : Option Nat :=
  if !contains_season_keyword folder_name then none
  else extract_number_from_string folder_name

/-- `replace_special_chars`: replace underscores, then periods, by
spaces. -/
def replace_special_chars (s : String) : String :=
  String.mk (((s.data.map (fun c => if c = '_' then ' ' else c)).map
    (fun c => if c = '.' then ' ' else c)))

/-- Python truthiness of an optional integer (`if index:`): false for
`None` and for `0`. -/
def opt_truthy : Option Nat → Bool
  | some n => !(n == 0)
  | none => false

/-! ### Token model and file-name common leading sequence discovery
(`TVAnalyzer._get_file_name_prefix`, `TVAnalyzer._update_saved_tokens`) -/

/-- Modelled from the spec: `src/model/token.py` is not provided.  A token
is a (position within its own file name, word) pair with an occurrence
counter; the counter starts at one occurrence and `count_up` increments
it; two tokens are equal iff position and word match. -/
structure Token where
  idx : Nat
  txt : String
  count : Nat
deriving DecidableEq, Repr

/-- `TVAnalyzer._update_saved_tokens`: linear scan of the saved list; the
first saved token equal to the input token (same position, same word) is
counted up, otherwise the input token is appended. -/
def update_saved_tokens : List Token → Token → List Token
  | [], t => [t]
  | s :: rest, t =>
    if s.idx = t.idx ∧ s.txt = t.txt then { s with count := s.count + 1 } :: rest
    else s :: update_saved_tokens rest t

/-- Normalized space-split word list of a file title (the
`replace_special_chars` + `split(" ")` steps of the prefix scan). -/
def split_title (f : MFile) : List String :=
  (split_on_char ' ' (replace_special_chars f.title).data).map String.mk

/-- The per-file token stream: each word paired with its zero-based
position and an initial count of one (`idx = 0; ...; idx += 1`). -/
def tokens_from (n : Nat) : List String → List Token
  | [] => []
  | w :: ws => ⟨n, w, 1⟩ :: tokens_from (n + 1) ws

/-- All tokens of one file. -/
def file_tokens (f : MFile) : List Token :=
  tokens_from 0 (split_title f)

/-- The saved-token frequency table after feeding every file's tokens in
order (the nested loops of `_get_file_name_prefix`). -/
def build_saved (files : List MFile) : List Token :=
  files.foldl (fun saved f => (file_tokens f).foldl update_saved_tokens saved) []

/-- The scan for `prefix_token_last_index`: position (counting from `n`)
of the first saved token whose count is at most one. -/
def first_low_idx : List Token → Nat → Option Nat
  | [], _ => none
  | t :: rest, n => if t.count ≤ 1 then some n else first_low_idx rest (n + 1)

/-- `TVAnalyzer._get_file_name_prefix`: build the positional frequency
table, find the first saved index of count at most one, and concatenate
the saved words before it, each followed by one space; when that index is
0 or when no count ever drops to one, the result is the empty string. -/
def get_file_name_pfx (files : List MFile) : String :=
  let saved := build_saved files
  match first_low_idx saved 0 with
  | some 0 => ""
  | some (j + 1) => ((saved.take (j + 1)).map (fun t => t.txt ++ " ")).foldl (· ++ ·) ""
  | none => ""

/-! ### Per-file episode index extraction
(`TVAnalyzer._extract_episode_index_from_file_name`,
`TVAnalyzer._extract_episode_index_from_normalized_form`) -/

/-- `_extract_episode_index_from_normalized_form`: digits after `E` of the
first `S[0-9]+E[0-9]+` match (the `try` body never raises). -/
def extract_episode_index_from_normalized_form (s : String) : Option Nat :=
  (find_se s.data).map digits_to_nat

/-- The normalized, suffix-stripped, prefix-removed, space-split word list
of a file name.  `trunc` stands for the external
`trunc_suffix_from_file_name` collaborator (spec section 6). -/
def episode_split (trunc : String → String) (file_name pfx : String) : List String :=
  let underscore_replaced := replace_special_chars file_name
  let suffix_removed := trunc underscore_replaced
  let pfx_removed := String.mk (remove_all suffix_removed.data pfx.data)
  (split_on_char ' ' pfx_removed.data).map String.mk

/-- `_extract_episode_index_from_file_name`: on the first split token, try
direct numeric parse, then the `SxxEyy` form, then any digit run; the two
fallback results pass through Python `if index:` truthiness, so a zero
value falls through; `none` is the raised `EpisodeIndexNotFoundException`. -/
def extract_episode_index_from_file_name (trunc : String → String)
    (file_name pfx : String) : Option Nat :=
  match episode_split trunc file_name pfx with
  | [] => none
  | str_index :: _ =>
    if is_numeric_str str_index then some (digits_to_nat str_index.data)
    else
      let index1 := extract_episode_index_from_normalized_form str_index
      if opt_truthy index1 then index1
      else
        let index2 := extract_number_from_string str_index
        if opt_truthy index2 then index2
        else none

/-! ### Python dictionaries as association lists -/

/-- Python `dict.get`: value of the unique entry with the key, if any. -/
def dict_get {α : Type} : List (Nat × α) → Nat → Option α
  | [], _ => none
  | (k', v) :: rest, k => if k' = k then some v else dict_get rest k

/-- Python `d[k] = v`: replace the value in place when the key exists,
else append the new entry (insertion order preserved). -/
def dict_insert {α : Type} : List (Nat × α) → Nat → α → List (Nat × α)
  | [], k, v => [(k, v)]
  | (k', v') :: rest, k, v =>
    if k' = k then (k, v) :: rest else (k', v') :: dict_insert rest k v

/-! ### Episode map construction (`TVAnalyzer._get_episodes`)

The Python body starts with `sorted(media_files, ...)` whose result is
discarded, so files are processed in input order.  A file whose index
extraction raises, or whose index is already mapped, goes to the side
list `episode_index_not_found_files` and processing continues.  The
second `if episodes.get(episode_index):` (the
`EpisodeIndexDuplicatedException` raise) repeats the condition of the
`continue` directly above it and is embedded as the `.error` arm. -/

def get_episodes_loop (trunc : String → String) (pfx : String) :
    List MFile → List (Nat × MFile) → List MFile →
    Except Unit (List (Nat × MFile) × List MFile)
  | [], episodes, side => .ok (episodes, side)
  | f :: rest, episodes, side =>
    match extract_episode_index_from_file_name trunc f.title pfx with
    | none => get_episodes_loop trunc pfx rest episodes (side ++ [f])
    | some index =>
      if (dict_get episodes index).isSome then
        get_episodes_loop trunc pfx rest episodes (side ++ [f])
      else if (dict_get episodes index).isSome then .error ()
      else get_episodes_loop trunc pfx rest (dict_insert episodes index f) side

/-- `TVAnalyzer._get_episodes`, with the internal side list made visible
in the result. -/
def get_episodes_exc (trunc : String → String) (media_files : List MFile) :
    Except Unit (List (Nat × MFile) × List MFile) :=
  get_episodes_loop trunc (get_file_name_pfx media_files) media_files [] []

/-! ### Folder-level analysis (`GeneralMediaAnalyzer`, `MovieAnalyzer`,
`TVAnalyzer`) -/

/-- `GeneralMediaAnalyzer._get_subtitle_file`: the direct subtitle and
archived-subtitle files of a folder, in file order (the empty-result
warning is a diagnostic only). -/
def get_subtitle_file (folder : Folder) : List MFile :=
  folder.getFiles.foldl
    (fun acc f => if is_subtitle_type f.fileType then acc ++ [f] else acc) []

/-- `GeneralMediaAnalyzer._analyze_subtitles`: the folder's own direct
subtitle files when its subtree contains any; otherwise the direct
subtitle files of the first child folder whose subtree contains any;
otherwise the empty list with a diagnostic.  No branch raises. -/
def analyze_subtitles (root : Folder) : List MFile :=
  if contains_subtitle_file root then get_subtitle_file root
  else
    match root.getFolders.find? (fun elem => contains_subtitle_file elem) with
    | some elem => get_subtitle_file elem
    | none => []

mutual

/-- `GeneralMediaAnalyzer._get_media_files`: the folder's direct media
files; when there are none, the concatenation of the recursive results
over all child folders in order. -/
def get_media_files : Folder → List MFile
  | .node _ fs ds =>
    let media_files := fs.foldl
      (fun acc f => if f.fileType == FileType.MEDIA then acc ++ [f] else acc) []
    if media_files.isEmpty then get_media_files_list ds else media_files

/-- Helper of `get_media_files` on a list of subfolders
(the `media_files.extend(...)` loop). -/
def get_media_files_list : List Folder → List MFile
  | [] => []
  | d :: ds => get_media_files d ++ get_media_files_list ds

end

/-- `MovieAnalyzer._find_media_root`: the folder itself when it has a
direct media file, else the first child folder with a direct media file,
else `MediaRootNotFoundException`. -/
def movie_find_media_root (root : Folder) : Except Unit Folder :=
  if 0 < files_of_type_count root FileType.MEDIA then .ok root
  else
    match root.getFolders.find?
      (fun folder => 0 < files_of_type_count folder FileType.MEDIA) with
    | some folder => .ok folder
    | none => .error ()

/-- `TVAnalyzer._find_media_root`: collect the children that have a
direct media file or a season keyword in the title; when exactly one
qualifies it is the media root, otherwise the folder itself is. -/
def tv_find_media_root (root : Folder) : Folder :=
  let media_contained_folder := root.getFolders.foldl
    (fun acc folder =>
      if 0 < files_of_type_count folder FileType.MEDIA ||
          contains_season_keyword folder.title
      then acc ++ [folder] else acc) []
  match media_contained_folder with
  | [folder] => folder
  | _ => root

/-- `TVAnalyzer._find_season_folders`: the children of the given folder
whose titles contain a season keyword, in child order. -/
def find_season_folders (root : Folder) : List Folder :=
  root.getFolders.foldl
    (fun acc folder =>
      if contains_season_keyword folder.title then acc ++ [folder] else acc) []

/-- `SeasonMetadata` (`src/model/metadata.py` is not provided; field list
modelled from the spec's SeasonMetadata description and the keyword
arguments of the two construction sites in `_analyze_season`). -/
structure SeasonMetadata where
  title : String
  original_title : String
  root : Folder
  media_root : Folder
  media_files : List MFile
  subtitles : List MFile
  season_index : Nat
  episode_files : List (Nat × MFile)

/-- The per-season-folder body of `TVAnalyzer._analyze_season`: extract
the season index (`None` with more than one child folder under the media
root is the `SeasonIndexNotFoundException`, otherwise index 1); resolve
the season's media root with `self._find_media_root`, which dispatches to
the TV rule; collect subtitles, media files and episodes; record the
entry under the season index, last write wins. -/
def analyze_season_loop (trunc : String → String) (title : String)
    (media_root : Folder) :
    List Folder → List (Nat × SeasonMetadata) →
    Except Unit (List (Nat × SeasonMetadata))
  | [], seasons => .ok seasons
  | season_root :: rest, seasons =>
    let season_index? :=
      match extract_season_index season_root.title with
      | none => if 1 < media_root.getFolders.length then none else some 1
      | some k => some k
    match season_index? with
    | none => .error ()
    | some season_index =>
      let season_media_root := tv_find_media_root season_root
      let subtitles := analyze_subtitles season_media_root
      let media_files := get_media_files season_media_root
      match get_episodes_exc trunc media_files with
      | .error e => .error e
      | .ok (episodes, _) =>
        analyze_season_loop trunc title media_root rest
          (dict_insert seasons season_index
            { title := title
              original_title := season_root.title
              root := media_root
              media_root := season_root
              media_files := media_files
              subtitles := subtitles
              season_index := season_index
              episode_files := episodes })

/-- `TVAnalyzer._analyze_season`.  The season folders are computed from
the analysis root `root` (not from `media_root`).  With no season folder,
a single season is built from the media root, the index defaulting to 1
when extraction yields `None` or 0 (Python `if not season_index:`). -/
def analyze_season (trunc : String → String) (title : String)
    (media_root root : Folder) : Except Unit (List (Nat × SeasonMetadata)) :=
  match find_season_folders root with
  | [] =>
    let subtitles := analyze_subtitles root
    let media_files := get_media_files media_root
    let season_index :=
      match extract_season_index media_root.title with
      | some k => if k = 0 then 1 else k
      | none => 1
    match get_episodes_exc trunc media_files with
    | .error e => .error e
    | .ok (episodes, _) =>
      .ok [(season_index,
        { title := title
          original_title := media_root.title
          root := root
          media_root := media_root
          media_files := media_files
          subtitles := subtitles
          season_index := season_index
          episode_files := episodes })]
  | season_folders => analyze_season_loop trunc title media_root season_folders []

/-! ### Archived-subtitle search
(`GeneralSubtitleExtractor._find_subtitle_containing_folder`) -/

/-- `_find_subtitle_containing_folder`: the folder itself when its
subtree contains a subtitle file; otherwise the `for child: return ...`
loop recurses into the first child only; with no child the
`NoSubtitleFileException` is raised. -/
def find_subtitle_containing_folder : Folder → Except Unit Folder
  | .node t fs [] =>
    if contains_subtitle_file (.node t fs []) then .ok (.node t fs [])
    else .error ()
  | .node t fs (c :: ds) =>
    if contains_subtitle_file (.node t fs (c :: ds)) then .ok (.node t fs (c :: ds))
    else find_subtitle_containing_folder c

/-- The folders visited by the leftmost-only descent of
`_find_subtitle_containing_folder`: the folder itself, then, when its
subtree has no subtitle and a first child exists, the folders visited
from that child. -/
def visit_chain : Folder → List Folder
  | .node t fs [] => [.node t fs []]
  | .node t fs (c :: ds) =>
    .node t fs (c :: ds) ::
      (if contains_subtitle_file (.node t fs (c :: ds)) then [] else visit_chain c)

/-! ### General helper lemmas -/

/-- Induction over the folder tree: to prove a property of every folder it
is enough to prove it of a node assuming it of every child. -/
def Folder.induct (motive : Folder → Prop)
    (h : ∀ t fs ds, (∀ d ∈ ds, motive d) → motive (.node t fs ds)) :
    ∀ f, motive f
  | .node t fs ds => h t fs ds (fun d _ => Folder.induct motive h d)

/-- The accumulate-matching-elements loop is a filter. -/
theorem foldl_append_filter {α : Type} (p : α → Bool) (l : List α) :
    ∀ acc, l.foldl (fun a x => if p x then a ++ [x] else a) acc = acc ++ l.filter p := by
  induction l with
  | nil => intro acc; simp
  | cons x l ih =>
    intro acc
    cases hp : p x <;> simp [List.filter_cons, hp, ih]

/-- A false containment query propagates to every subfolder of the list. -/
theorem folders_contain_subtitle_false {ds : List Folder}
    (h : folders_contain_subtitle ds = false) :
    ∀ d ∈ ds, contains_subtitle_file d = false := by
  induction ds with
  | nil => intro d hd; cases hd
  | cons d0 ds ih =>
    rw [folders_contain_subtitle] at h
    have h12 := Bool.or_eq_false_iff.mp h
    intro d hd
    rcases List.mem_cons.mp hd with rfl | hd'
    · exact h12.1
    · exact ih h12.2 d hd'

/-! ### Claim C2: which folder's children drive season discovery -/

/-- A tree whose media root is a child of the analysis root and whose
media root has a season-keyword child that the analysis root lacks. -/
def c2inner : Folder := .node "Season 2" [⟨"e.mkv", .MEDIA⟩] []

/-- Middle folder with a direct media file and a season child. -/
def c2mid : Folder := .node "stuff" [⟨"m.mkv", .MEDIA⟩] [c2inner]

/-- Analysis root of the C2 counterexample. -/
def c2root : Folder := .node "Show" [] [c2mid]

/-- Claim C2 counterexample: the season-folder list that
`_analyze_season` computes (from the analysis root, line 208) differs
from the season-keyword children of the media root: here the former is
empty while the media root has the season child "Season 2". -/
theorem season_folders_not_from_media_root :
    find_season_folders c2root ≠
      ((tv_find_media_root c2root).getFolders).filter
        (fun f => contains_season_keyword f.title) := by
  intro h
  exact absurd (congrArg List.length h) (by decide)

/-- Claim C2, amended: the season folders driving per-season resolution
are exactly the immediate children of the analysis root (not of the media
root) whose titles contain a season keyword, in child order;
`analyze_season` applies `find_season_folders` to its `root` argument. -/
theorem season_folders_are_root_children (root : Folder) :
    find_season_folders root =
      root.getFolders.filter (fun f => contains_season_keyword f.title) := by
  simp [find_season_folders, foldl_append_filter]

/-! ### Claim C3: which rule resolves a season folder's media root -/

/-- A media-containing child of the C3 season folder. -/
def c3sub : Folder := .node "sub" [⟨"e2.mkv", .MEDIA⟩] []

/-- A season folder with a direct media file and exactly one
media-containing child. -/
def c3season : Folder := .node "Season 1" [⟨"e1.mkv", .MEDIA⟩] [c3sub]

/-- Claim C3 counterexample: the movie-style rule would keep the season
folder itself (it has a direct media file), but the TV rule that
`self._find_media_root` dispatches to moves to the single qualifying
child, so the resolved season media root is not the movie-style one. -/
theorem season_media_root_not_movie_rule :
    movie_find_media_root c3season = .ok c3season ∧
      tv_find_media_root c3season ≠ c3season := by
  refine ⟨rfl, ?_⟩
  intro h
  exact absurd (congrArg Folder.title h) (by decide)

/-! ### Claim C7: prefix removal inside episode extraction -/

/-- Position of the first literal occurrence of `pat`, as the split of
the list into the part before the occurrence and the part after it. -/
def find_first_occ (pat : List Char) : List Char → Option (List Char × List Char)
  | [] => if lead_matches pat [] then some ([], []) else none
  | c :: rest =>
    if lead_matches pat (c :: rest) then some ([], (c :: rest).drop pat.length)
    else (find_first_occ pat rest).map (fun p => (c :: p.1, p.2))

/-- Modelled from the spec: deletion of only the first literal occurrence
of the pattern, later occurrences left in place (the claim's reading of
the prefix-removal step). -/
def remove_first (s pat : List Char) : List Char :=
  match find_first_occ pat s with
  | some (a, b) => a ++ b
  | none => s

/-- While skipping, the scanner just drops characters. -/
theorem remove_all_go_skip (pat : List Char) : ∀ (s : List Char) (n : Nat),
    remove_all_go pat s n = remove_all_go pat (s.drop n) 0 := by
  intro s
  induction s with
  | nil => intro n; cases n <;> simp [remove_all_go]
  | cons c rest ih =>
    intro n
    cases n with
    | zero => simp
    | succ m => simp [remove_all_go, ih m]

/-- The scanner deletes the first occurrence and restarts after it. -/
theorem remove_all_go_first_occ (pat : List Char) (hp : pat ≠ []) :
    ∀ s : List Char,
      remove_all_go pat s 0 =
        match find_first_occ pat s with
        | some (a, b) => a ++ remove_all_go pat b 0
        | none => s := by
  intro s
  induction s with
  | nil =>
    obtain ⟨p, ps, rfl⟩ : ∃ p ps, pat = p :: ps := by
      cases pat with
      | nil => exact absurd rfl hp
      | cons p ps => exact ⟨p, ps, rfl⟩
    simp [remove_all_go, find_first_occ, lead_matches]
  | cons c rest ih =>
    cases hm : lead_matches pat (c :: rest) with
    | true =>
      obtain ⟨p, ps, rfl⟩ : ∃ p ps, pat = p :: ps := by
        cases pat with
        | nil => exact absurd rfl hp
        | cons p ps => exact ⟨p, ps, rfl⟩
      simp only [remove_all_go, hm, if_true, find_first_occ]
      rw [remove_all_go_skip]
      simp [List.length_cons]
    | false =>
      simp only [remove_all_go, hm, Bool.false_eq_true, if_false, find_first_occ]
      rw [ih]
      cases hfo : find_first_occ pat rest with
      | none => simp
      | some ab => simp

/-- Claim C7, amended: the detected prefix is removed by deleting every
left-to-right non-overlapping literal occurrence: the first occurrence is
deleted and removal then continues in the remainder after it, so later
occurrences are not left in place. -/
theorem pfx_removal_removes_all_occurrences (s pat : List Char) (hp : pat ≠ []) :
    remove_all s pat =
      match find_first_occ pat s with
      | some (a, b) => a ++ remove_all b pat
      | none => s := by
  have hne : pat.isEmpty = false := by
    cases pat with
    | nil => exact absurd rfl hp
    | cons p ps => rfl
  rw [remove_all, hne]
  rw [remove_all_go_first_occ pat hp s]
  cases hfo : find_first_occ pat s with
  | none => simp
  | some ab =>
    simp only [remove_all, hne]
    rfl

/-- Witness for the amended C7 theorem at a concrete string and pattern. -/
theorem pfx_removal_removes_all_occurrences_witness :
    remove_all "A 1 A 2".data "A ".data =
      match find_first_occ "A ".data "A 1 A 2".data with
      | some (a, b) => a ++ remove_all b "A ".data
      | none => "A 1 A 2".data :=
  pfx_removal_removes_all_occurrences "A 1 A 2".data "A ".data (by decide)

/-- Claim C7 counterexample: on "A 1 A 2" with prefix "A " the code's
removal (all occurrences) differs from first-occurrence-only removal. -/
theorem pfx_removal_not_first_only :
    remove_all "A 1 A 2".data "A ".data ≠
      remove_first "A 1 A 2".data "A ".data := by decide

/-! ### Claim C9: subtitle resolution on subtitle-free trees -/

/-- Claim C9: when the recursive containment query reports no subtitle or
archived-subtitle file anywhere in the folder's subtree, the core
subtitle resolution returns the empty list (the diagnostic is a log line,
and no branch of `_analyze_subtitles` raises: the embedding is a total
function into plain lists). -/
theorem no_subtitle_returns_empty (root : Folder)
    (h : contains_subtitle_file root = false) : analyze_subtitles root = [] := by
  cases root with
  | node t fs ds =>
    have h2 : folders_contain_subtitle ds = false := by
      rw [contains_subtitle_file] at h
      exact (Bool.or_eq_false_iff.mp h).2
    have hfind : (Folder.node t fs ds).getFolders.find?
        (fun elem => contains_subtitle_file elem) = none := by
      apply List.find?_eq_none.mpr
      intro x hx
      have hxf := folders_contain_subtitle_false h2 x hx
      simp [hxf]
    simp only [analyze_subtitles, h, Bool.false_eq_true, if_false, hfind]

/-- A subtitle-free tree for the C9 witness. -/
def w9root : Folder :=
  .node "Show" [⟨"a.mkv", .MEDIA⟩] [.node "sub" [⟨"b.nfo", .OTHER⟩] []]

/-- Witness for C9 on a concrete subtitle-free tree. -/
theorem no_subtitle_returns_empty_witness : analyze_subtitles w9root = [] :=
  no_subtitle_returns_empty w9root rfl

/-! ### Claim C10: the archived-subtitle containing-folder search -/

/-- Claim C10: the folder itself is returned as soon as its recursive
containment query holds (even when the subtitle files sit in a deeper
descendant); otherwise the search steps into the first child only; and
the `NoSubtitleFileException` result occurs exactly when the
leftmost-only descent reaches a folder without subfolders whose subtree
has no subtitle file. -/
theorem find_subtitle_containing_folder_spec (f : Folder) :
    (contains_subtitle_file f = true → find_subtitle_containing_folder f = .ok f) ∧
    (∀ c cs, contains_subtitle_file f = false → f.getFolders = c :: cs →
      find_subtitle_containing_folder f = find_subtitle_containing_folder c) ∧
    (find_subtitle_containing_folder f = .error () ↔
      ∃ g ∈ visit_chain f, g.getFolders = [] ∧ contains_subtitle_file g = false) := by
  induction f using Folder.induct with
  | h t fs ds ih =>
    cases ds with
    | nil =>
      refine ⟨?_, ?_, ?_⟩
      · intro hc; simp [find_subtitle_containing_folder, hc]
      · intro c cs _ hcc; cases hcc
      · cases hc : contains_subtitle_file (Folder.node t fs []) <;>
          simp [find_subtitle_containing_folder, visit_chain, hc, Folder.getFolders]
    | cons c ds' =>
      have ihc := ih c (List.mem_cons_self c ds')
      refine ⟨?_, ?_, ?_⟩
      · intro hc; simp [find_subtitle_containing_folder, hc]
      · intro c' cs' hfalse hcc
        have hcc' : c = c' ∧ ds' = cs' := by
          rw [Folder.getFolders] at hcc
          exact ⟨(List.cons.injEq _ _ _ _ ▸ hcc).1, (List.cons.injEq _ _ _ _ ▸ hcc).2⟩
        obtain ⟨rfl, rfl⟩ := hcc'
        simp [find_subtitle_containing_folder, hfalse]
      · cases hc : contains_subtitle_file (Folder.node t fs (c :: ds')) with
        | true =>
          simp [find_subtitle_containing_folder, visit_chain, hc, Folder.getFolders]
        | false =>
          have hstep : find_subtitle_containing_folder (Folder.node t fs (c :: ds')) =
              find_subtitle_containing_folder c := by
            simp [find_subtitle_containing_folder, hc]
          rw [hstep, ihc.2.2]
          simp [visit_chain, hc, Folder.getFolders]

/-- Inner node of the C10 witness tree: holds the subtitle file. -/
def w10leaf : Folder := .node "inner" [⟨"sub.srt", .SUBTITLE⟩] []

/-- Root of the C10 witness tree: no direct subtitle, but the subtree has
one, so the root itself is returned. -/
def w10root : Folder := .node "outer" [] [w10leaf]

/-- Witness for C10: a folder whose subtitles lie only in a descendant is
still itself returned. -/
theorem find_subtitle_containing_folder_spec_witness :
    find_subtitle_containing_folder w10root = .ok w10root :=
  (find_subtitle_containing_folder_spec w10root).1 rfl

/-! ### Dictionary lemmas -/

/-- Lookup after insert-or-replace. -/
theorem dict_get_insert {α : Type} (d : List (Nat × α)) (k : Nat) (v : α) (i : Nat) :
    dict_get (dict_insert d k v) i = if i = k then some v else dict_get d i := by
  induction d with
  | nil => by_cases hik : i = k <;> simp [dict_insert, dict_get, hik, Ne.symm]
  | cons kv rest ih =>
    obtain ⟨k', v'⟩ := kv
    by_cases hk : k' = k
    · subst hk
      by_cases hik : i = k' <;> simp [dict_insert, dict_get, hik, Ne.symm, ih]
    · by_cases hik : i = k <;> by_cases hik' : k' = i <;>
        simp_all [dict_insert, dict_get]
  
/-- Entries of an inserted dictionary come from the old one or are the
new pair. -/
theorem dict_insert_mem {α : Type} (d : List (Nat × α)) (k : Nat) (v : α) :
    ∀ p ∈ dict_insert d k v, p ∈ d ∨ p = (k, v) := by
  induction d with
  | nil => intro p hp; simp [dict_insert] at hp; exact Or.inr hp
  | cons kv rest ih =>
    obtain ⟨k', v'⟩ := kv
    intro p hp
    by_cases hk : k' = k
    · subst hk
      simp only [dict_insert, if_pos rfl] at hp
      rcases List.mem_cons.mp hp with rfl | hp'
      · exact Or.inr rfl
      · exact Or.inl (List.mem_cons_of_mem _ hp')
    · simp only [dict_insert, if_neg hk] at hp
      rcases List.mem_cons.mp hp with rfl | hp'
      · exact Or.inl (List.mem_cons_self _ _)
      · rcases ih p hp' with h | h
        · exact Or.inl (List.mem_cons_of_mem _ h)
        · exact Or.inr h

/-- Inserting a fresh key grows the dictionary by one entry. -/
theorem dict_insert_length_fresh {α : Type} (d : List (Nat × α)) (k : Nat) (v : α)
    (h : dict_get d k = none) : (dict_insert d k v).length = d.length + 1 := by
  induction d with
  | nil => rfl
  | cons kv rest ih =>
    obtain ⟨k', v'⟩ := kv
    by_cases hk : k' = k
    · simp [dict_get, hk] at h
    · simp only [dict_get, if_neg hk] at h
      simp [dict_insert, if_neg hk, ih h]

/-- A true optional-integer truthiness test rules out `None`. -/
theorem opt_truthy_ne_none {o : Option Nat} (h : opt_truthy o = true) : o ≠ none := by
  cases o <;> simp [opt_truthy] at h ⊢

/-! ### The episode loop characterization (claims C5, C6, C8) -/

/-- Invariant of `_get_episodes`'s loop: it always succeeds; a key of the
final map keeps the value it had on entry, and a fresh key maps to the
first file of the remaining input whose extraction yields that key; one
file adds exactly one entry to the map or to the side list; and every new
map entry records its own extracted index. -/
theorem get_episodes_loop_spec (trunc : String → String) (pfx : String) :
    ∀ (files : List MFile) (eps : List (Nat × MFile)) (side : List MFile),
      ∃ eps2 side2,
        get_episodes_loop trunc pfx files eps side = .ok (eps2, side2) ∧
        (∀ idx, dict_get eps2 idx =
          match dict_get eps idx with
          | some v => some v
          | none => files.find?
              (fun f => extract_episode_index_from_file_name trunc f.title pfx
                == some idx)) ∧
        eps2.length + side2.length = eps.length + side.length + files.length ∧
        (∀ q ∈ eps2, q ∈ eps ∨
          extract_episode_index_from_file_name trunc q.2.title pfx = some q.1) := by
  intro files
  induction files with
  | nil =>
    intro eps side
    refine ⟨eps, side, rfl, ?_, by simp, fun q hq => Or.inl hq⟩
    intro idx
    cases dict_get eps idx <;> simp
  | cons f rest ih =>
    intro eps side
    cases hE : extract_episode_index_from_file_name trunc f.title pfx with
    | none =>
      obtain ⟨eps2, side2, heq, hget, hlen, hmem⟩ := ih eps (side ++ [f])
      refine ⟨eps2, side2, ?_, ?_, ?_, hmem⟩
      · simp only [get_episodes_loop, hE]
        exact heq
      · intro idx
        rw [hget idx]
        cases dict_get eps idx with
        | some v => rfl
        | none =>
          rw [List.find?_cons_of_neg _ (by simp [hE])]
      · simp at hlen ⊢
        omega
    | some i =>
      cases hdg : dict_get eps i with
      | some v =>
        obtain ⟨eps2, side2, heq, hget, hlen, hmem⟩ := ih eps (side ++ [f])
        refine ⟨eps2, side2, ?_, ?_, ?_, hmem⟩
        · simp only [get_episodes_loop, hE, hdg, Option.isSome_some, if_true]
          exact heq
        · intro idx
          rw [hget idx]
          by_cases hidx : idx = i
          · subst hidx; rw [hdg]
          · cases hdi : dict_get eps idx with
            | some w => rfl
            | none =>
              rw [List.find?_cons_of_neg _
                (by simp [hE]; exact fun h => hidx h.symm)]
        · simp at hlen ⊢
          omega
      | none =>
        obtain ⟨eps2, side2, heq, hget, hlen, hmem⟩ := ih (dict_insert eps i f) side
        refine ⟨eps2, side2, ?_, ?_, ?_, ?_⟩
        · simp only [get_episodes_loop, hE, hdg, Option.isSome_none,
            Bool.false_eq_true, if_false]
          exact heq
        · intro idx
          rw [hget idx, dict_get_insert]
          by_cases hidx : idx = i
          · subst hidx
            rw [hdg, List.find?_cons_of_pos _ (by simp [hE])]
            simp
          · rw [if_neg hidx]
            cases hdi : dict_get eps idx with
            | some w => rfl
            | none =>
              rw [List.find?_cons_of_neg _
                (by simp [hE]; exact fun h => hidx h.symm)]
        · rw [dict_insert_length_fresh eps i f hdg] at hlen
          simp at hlen ⊢
          omega
        · intro q hq
          rcases hmem q hq with hq' | hq'
          · rcases dict_insert_mem eps i f q hq' with h | h
            · exact Or.inl h
            · subst h
              exact Or.inr hE
          · exact Or.inr hq'

/-- `_get_episodes` always succeeds, with every episode entry recording
its own extracted index. -/
theorem get_episodes_exc_ok (trunc : String → String) (mf : List MFile) :
    ∃ eps side, get_episodes_exc trunc mf = .ok (eps, side) ∧
      ∀ q ∈ eps, extract_episode_index_from_file_name trunc q.2.title
        (get_file_name_pfx mf) = some q.1 := by
  obtain ⟨eps, side, heq, _, _, hmem⟩ :=
    get_episodes_loop_spec trunc (get_file_name_pfx mf) mf [] []
  refine ⟨eps, side, heq, fun q hq => ?_⟩
  rcases hmem q hq with h | h
  · cases h
  · exact h

/-! ### Claim C6: processing order, collision policy, no duplicate raise -/

/-- Claim C6: `_get_episodes` never reaches the
`EpisodeIndexDuplicatedException` raise (the result is always `ok`, on
every input); files are consumed in input-list order and when several
resolve to the same index the first one keeps the mapping (`find?` takes
the first match of the input list) while every further file lands in the
side list (one file always accounts for exactly one map or side entry). -/
theorem get_episodes_never_duplicated_first_kept (trunc : String → String)
    (media_files : List MFile) :
    ∃ eps side,
      get_episodes_exc trunc media_files = .ok (eps, side) ∧
      eps.length + side.length = media_files.length ∧
      ∀ idx, dict_get eps idx = media_files.find?
        (fun f => extract_episode_index_from_file_name trunc f.title
          (get_file_name_pfx media_files) == some idx) := by
  obtain ⟨eps, side, heq, hget, hlen, _⟩ :=
    get_episodes_loop_spec trunc (get_file_name_pfx media_files) media_files [] []
  refine ⟨eps, side, heq, by simpa using hlen, fun idx => ?_⟩
  have h := hget idx
  simpa [dict_get] using h

/-! ### Claim C5: the three extraction attempts and the diversion -/

/-- Claim C5, amended: extraction fails (raises
`EpisodeIndexNotFoundException`) exactly when the first split token is
not purely numeric, the `SxxEyy` attempt yields nothing Python-truthy
(so a parsed `E`-digit value of 0 falls through), and the digit-run
attempt yields nothing Python-truthy (so a digit-run value of 0 still
fails); and a failing file is diverted to the side list while the loop
continues with the remaining files. -/
theorem extract_episode_none_iff (trunc : String → String) (fname pfx t : String)
    (ts : List String) (f : MFile) (rest : List MFile) (eps : List (Nat × MFile))
    (side : List MFile)
    (hsplit : episode_split trunc fname pfx = t :: ts)
    (hf : f.title = fname) :
    (extract_episode_index_from_file_name trunc fname pfx = none ↔
      is_numeric_str t = false ∧
      opt_truthy (extract_episode_index_from_normalized_form t) = false ∧
      opt_truthy (extract_number_from_string t) = false) ∧
    (extract_episode_index_from_file_name trunc fname pfx = none →
      get_episodes_loop trunc pfx (f :: rest) eps side =
        get_episodes_loop trunc pfx rest eps (side ++ [f])) := by
  constructor
  · rw [extract_episode_index_from_file_name, hsplit]
    cases hnum : is_numeric_str t
    · cases htr1 : opt_truthy (extract_episode_index_from_normalized_form t)
      · cases htr2 : opt_truthy (extract_number_from_string t)
        · simp [hnum, htr1, htr2]
        · simp [hnum, htr1, htr2, opt_truthy_ne_none htr2]
      · simp [hnum, htr1, opt_truthy_ne_none htr1]
    · simp [hnum]
  · intro hnone
    rw [get_episodes_loop, hf, hnone]

/-- Claim C5 counterexample: for the token "E0" the third attempt does
find a digit run (value 0), yet extraction raises
`EpisodeIndexNotFoundException`, because the zero value fails Python's
`if index:` truthiness test; so "raised iff all three attempts fail" is
false on the code. -/
theorem episode_extraction_raises_despite_digit_run :
    extract_number_from_string "E0" = some 0 ∧
    extract_episode_index_from_file_name (fun s => s) "E0" "" = none := by
  exact ⟨rfl, rfl⟩

/-- Witness for the amended C5 theorem on the file "E0" with the empty
detected prefix and the identity suffix-stripper. -/
theorem extract_episode_none_iff_witness :
    ((extract_episode_index_from_file_name (fun s => s) "E0" "" = none ↔
      is_numeric_str "E0" = false ∧
      opt_truthy (extract_episode_index_from_normalized_form "E0") = false ∧
      opt_truthy (extract_number_from_string "E0") = false) ∧
    (extract_episode_index_from_file_name (fun s => s) "E0" "" = none →
      get_episodes_loop (fun s => s) "" [⟨"E0", .MEDIA⟩] [] [] =
        get_episodes_loop (fun s => s) "" [] [] ([] ++ [⟨"E0", .MEDIA⟩]))) :=
  extract_episode_none_iff (fun s => s) "E0" "" "E0" [] ⟨"E0", .MEDIA⟩ [] [] []
    rfl rfl

/-! ### The season loop characterization (claims C3, C4, C8) -/

/-- Every entry the season loop adds comes from one of the season folders
processed: its key is that folder's extracted index (or the default 1)
and its metadata records the TV-rule media root's files and subtitles. -/
theorem analyze_season_loop_mem (trunc : String → String) (title : String)
    (media_root : Folder) :
    ∀ (ss : List Folder) (acc seasons : List (Nat × SeasonMetadata)),
      analyze_season_loop trunc title media_root ss acc = .ok seasons →
      ∀ p ∈ seasons, p ∈ acc ∨
        ∃ s ∈ ss, ∃ eps side,
          get_episodes_exc trunc (get_media_files (tv_find_media_root s)) =
            .ok (eps, side) ∧
          p = ((extract_season_index s.title).getD 1,
            { title := title
              original_title := s.title
              root := media_root
              media_root := s
              media_files := get_media_files (tv_find_media_root s)
              subtitles := analyze_subtitles (tv_find_media_root s)
              season_index := (extract_season_index s.title).getD 1
              episode_files := eps }) := by
  intro ss
  induction ss with
  | nil =>
    intro acc seasons h p hp
    simp only [analyze_season_loop, Except.ok.injEq] at h
    subst h
    exact Or.inl hp
  | cons s rest ih =>
    intro acc seasons h p hp
    cases hext : extract_season_index s.title with
    | none =>
      by_cases hlen : 1 < media_root.getFolders.length
      · simp [analyze_season_loop, hext, hlen] at h
      · obtain ⟨eps, side, hge, _⟩ :=
          get_episodes_exc_ok trunc (get_media_files (tv_find_media_root s))
        simp only [analyze_season_loop, hext, if_neg hlen, hge] at h
        rcases ih _ _ h p hp with hin | ⟨s', hs', eps', side', hge', rfl⟩
        · rcases dict_insert_mem _ _ _ p hin with hin' | rfl
          · exact Or.inl hin'
          · exact Or.inr ⟨s, List.mem_cons_self s rest, eps, side, hge, by
              simp [hext]⟩
        · exact Or.inr ⟨s', List.mem_cons_of_mem s hs', eps', side', hge', rfl⟩
    | some k =>
      obtain ⟨eps, side, hge, _⟩ :=
        get_episodes_exc_ok trunc (get_media_files (tv_find_media_root s))
      simp only [analyze_season_loop, hext, hge] at h
      rcases ih _ _ h p hp with hin | ⟨s', hs', eps', side', hge', rfl⟩
      · rcases dict_insert_mem _ _ _ p hin with hin' | rfl
        · exact Or.inl hin'
        · exact Or.inr ⟨s, List.mem_cons_self s rest, eps, side, hge, by
            simp [hext]⟩
      · exact Or.inr ⟨s', List.mem_cons_of_mem s hs', eps', side', hge', rfl⟩

/-- The season loop fails exactly when the media root has more than one
child folder and some processed season folder has no extractable index. -/
theorem analyze_season_loop_error_iff (trunc : String → String) (title : String)
    (media_root : Folder) :
    ∀ (ss : List Folder) (acc : List (Nat × SeasonMetadata)),
      analyze_season_loop trunc title media_root ss acc = .error () ↔
        1 < media_root.getFolders.length ∧
          ∃ s ∈ ss, extract_season_index s.title = none := by
  intro ss
  induction ss with
  | nil => intro acc; simp [analyze_season_loop]
  | cons s rest ih =>
    intro acc
    cases hext : extract_season_index s.title with
    | none =>
      by_cases hlen : 1 < media_root.getFolders.length
      · simp [analyze_season_loop, hext, hlen]
      · obtain ⟨eps, side, hge, _⟩ :=
          get_episodes_exc_ok trunc (get_media_files (tv_find_media_root s))
        simp only [analyze_season_loop, hext, if_neg hlen, hge]
        rw [ih]
        simp [hlen]
    | some k =>
      obtain ⟨eps, side, hge, _⟩ :=
        get_episodes_exc_ok trunc (get_media_files (tv_find_media_root s))
      simp only [analyze_season_loop, hext, hge]
      rw [ih]
      simp [hext]

/-! ### Claim C4: when season analysis fails -/

/-- Claim C4, amended: TV season analysis raises
`SeasonIndexNotFoundException` exactly when some season folder's title
yields no index and the media root has more than one immediate child
folder of any kind (not: unless it has exactly one season-like child);
with at most one child folder the index defaults to 1.  Two unnumbered
season folders under the same media root still raise, since both are
children of it. -/
theorem analyze_season_error_iff (trunc : String → String) (title : String)
    (media_root root : Folder) :
    analyze_season trunc title media_root root = .error () ↔
      1 < media_root.getFolders.length ∧
        ∃ s ∈ find_season_folders root, extract_season_index s.title = none := by
  cases hfs : find_season_folders root with
  | nil =>
    obtain ⟨eps, side, hge, _⟩ := get_episodes_exc_ok trunc (get_media_files media_root)
    cases hext : extract_season_index media_root.title with
    | none => simp [analyze_season, hfs, hge, hext]
    | some k => simp [analyze_season, hfs, hge, hext]
  | cons s rest =>
    rw [show analyze_season trunc title media_root root =
        analyze_season_loop trunc title media_root (s :: rest) [] by
      simp [analyze_season, hfs]]
    rw [analyze_season_loop_error_iff]

/-- Season folder without digits for the C4 counterexample. -/
def c4seasonf : Folder := .node "Season" [⟨"e1.mkv", .MEDIA⟩] []

/-- A sibling folder with media but no season keyword. -/
def c4extras : Folder := .node "Extras" [⟨"x.mkv", .MEDIA⟩] []

/-- Analysis root of the C4 counterexample: with two qualifying children
the TV media root is the root itself. -/
def c4root : Folder := .node "Show" [] [c4seasonf, c4extras]

/-- Claim C4 counterexample: the media root has exactly one season-like
child ("Season", unnumbered), so the claim promises the default index 1,
but the code counts all child folders (two here) and raises
`SeasonIndexNotFoundException`. -/
theorem season_index_error_despite_single_season_child :
    (find_season_folders (tv_find_media_root c4root)).length = 1 ∧
    analyze_season (fun s => s) "Show" (tv_find_media_root c4root) c4root =
      .error () :=
  ⟨rfl, rfl⟩

/-! ### Claim C3: the per-season media root in the full analysis -/

/-- Claim C3, amended: each season entry produced by the folder loop
resolves its own media root with the TV rule (`self._find_media_root`
dispatches to `TVAnalyzer`'s override, not to the movie rule): its media
files and subtitles are those of `tv_find_media_root` applied to the
season folder, and its stored media-root field is the season folder
itself. -/
theorem season_media_root_uses_tv_rule (trunc : String → String) (title : String)
    (media_root root : Folder) (seasons : List (Nat × SeasonMetadata))
    (p : Nat × SeasonMetadata)
    (h : analyze_season trunc title media_root root = .ok seasons)
    (hne : find_season_folders root ≠ [])
    (hp : p ∈ seasons) :
    ∃ s ∈ find_season_folders root,
      p.2.media_root = s ∧
      p.2.media_files = get_media_files (tv_find_media_root s) ∧
      p.2.subtitles = analyze_subtitles (tv_find_media_root s) := by
  cases hfs : find_season_folders root with
  | nil => exact absurd hfs hne
  | cons s rest =>
    rw [show analyze_season trunc title media_root root =
        analyze_season_loop trunc title media_root (s :: rest) [] by
      simp [analyze_season, hfs]] at h
    rcases analyze_season_loop_mem trunc title media_root (s :: rest) [] seasons
        h p hp with hin | ⟨s', hs', eps, side, hge, rfl⟩
    · cases hin
    · exact ⟨s', hs', rfl, rfl, rfl⟩

/-! ### Claim C8: the keys of the season and episode maps -/

/-- Claim C8, amended: every key of the season map is either the default
1 or the extracted season index of a season folder (or, with no season
folders, of the media root title), and every key of an episode map is the
extracted episode index of its own file; since extraction can yield 0
("Season 0" folders, "00" episodes), the keys are natural numbers that
are not always positive. -/
theorem analyze_season_key_provenance (trunc : String → String) (title : String)
    (media_root root : Folder) (seasons : List (Nat × SeasonMetadata))
    (p : Nat × SeasonMetadata)
    (h : analyze_season trunc title media_root root = .ok seasons)
    (hp : p ∈ seasons) :
    (p.1 = 1 ∨
      (∃ s ∈ find_season_folders root, extract_season_index s.title = some p.1) ∨
      extract_season_index media_root.title = some p.1) ∧
    ∀ q ∈ p.2.episode_files,
      extract_episode_index_from_file_name trunc q.2.title
        (get_file_name_pfx p.2.media_files) = some q.1 := by
  cases hfs : find_season_folders root with
  | nil =>
    obtain ⟨eps, side, hge, hq⟩ :=
      get_episodes_exc_ok trunc (get_media_files media_root)
    simp only [analyze_season, hfs, hge, Except.ok.injEq] at h
    subst h
    rcases List.mem_singleton.mp hp with rfl
    constructor
    · cases hext : extract_season_index media_root.title with
      | none => left; simp [hext]
      | some k =>
        by_cases hk : k = 0
        · left; simp [hext, hk]
        · right; right; simp [hext, hk]
    · intro q hq'
      exact hq q hq'
  | cons s rest =>
    have hstep : analyze_season trunc title media_root root =
        analyze_season_loop trunc title media_root (s :: rest) [] := by
      simp [analyze_season, hfs]
    rw [hstep] at h
    rcases analyze_season_loop_mem trunc title media_root (s :: rest) [] seasons
        h p hp with hin | ⟨s', hs', eps, side, hge, rfl⟩
    · cases hin
    · constructor
      · cases hext : extract_season_index s'.title with
        | none => left; simp [hext]
        | some k => right; left; exact ⟨s', hs', by simp [hext]⟩
      · obtain ⟨eps2, side2, hge2, hq⟩ :=
          get_episodes_exc_ok trunc (get_media_files (tv_find_media_root s'))
        rw [hge] at hge2
        injection hge2 with hpair
        obtain ⟨rfl, rfl⟩ := Prod.mk.injEq .. ▸ And.intro (congrArg Prod.fst hpair)
          (congrArg Prod.snd hpair)
        intro q hq'
        exact hq q hq'

/-- Episode file "Show.00.mkv", whose extracted index is 0. -/
def c8e00 : MFile := ⟨"Show.00.mkv", .MEDIA⟩

/-- Episode file "Show.01.mkv". -/
def c8e01 : MFile := ⟨"Show.01.mkv", .MEDIA⟩

/-- Season folder "Season 0", whose extracted season index is 0. -/
def c8s0 : Folder := .node "Season 0" [c8e00, c8e01] []

/-- Analysis root of the zero-index tree; its TV media root is the
"Season 0" child. -/
def c8root : Folder := .node "Show" [] [c8s0]

/-- The single season entry the analysis of the zero-index tree builds. -/
def c8season_meta : SeasonMetadata :=
  { title := "Show"
    original_title := "Season 0"
    root := c8s0
    media_root := c8s0
    media_files := [c8e00, c8e01]
    subtitles := []
    season_index := 0
    episode_files := [(0, c8e00), (1, c8e01)] }

/-- Claim C8 counterexample: the TV analysis of the "Season 0" tree
succeeds and produces season key 0 and episode key 0, so not every key of
a successful analysis is a positive integer. -/
theorem season_and_episode_keys_can_be_zero :
    analyze_season (fun s => s) "Show" (tv_find_media_root c8root) c8root =
      .ok [(0, c8season_meta)] ∧
    (0, c8e00) ∈ c8season_meta.episode_files :=
  ⟨rfl, by simp [c8season_meta]⟩

/-- Witness for the amended C8 theorem: provenance of episode key 0 of
the "Season 0" tree. -/
theorem analyze_season_key_provenance_witness :
    extract_episode_index_from_file_name (fun s => s) c8e00.title
      (get_file_name_pfx c8season_meta.media_files) = some 0 :=
  (analyze_season_key_provenance (fun s => s) "Show" (tv_find_media_root c8root)
      c8root [(0, c8season_meta)] (0, c8season_meta) rfl (by simp)).2
    (0, c8e00) (by simp [c8season_meta])

/-- Witness for the amended C3 theorem: in the "Season 0" tree the single
season entry records the TV-rule media root's files and subtitles. -/
theorem season_media_root_uses_tv_rule_witness :
    ∃ s ∈ find_season_folders c8root,
      c8season_meta.media_root = s ∧
      c8season_meta.media_files = get_media_files (tv_find_media_root s) ∧
      c8season_meta.subtitles = analyze_subtitles (tv_find_media_root s) :=
  season_media_root_uses_tv_rule (fun s => s) "Show" (tv_find_media_root c8root)
    c8root [(0, c8season_meta)] (0, c8season_meta) rfl
    (by intro h; exact absurd (congrArg List.length h) (by decide))
    (by simp)

/-! ### Claim C1: prefix discovery infrastructure -/

/-- The token stream of a file list: every file's tokens in file order. -/
def all_tokens : List MFile → List Token
  | [] => []
  | f :: fs => file_tokens f ++ all_tokens fs

/-- Number of files whose normalized split title has token `w` at
position `i` (the occurrence count of the claim). -/
def occ_count (files : List MFile) (i : Nat) (w : String) : Nat :=
  files.countP (fun f => (split_title f).get? i == some w)

/-- Boolean test for the token equality used by the frequency table. -/
def tok_match (i : Nat) (w : String) (t : Token) : Bool :=
  t.idx == i && t.txt == w

/-- Add to a token's count its number of occurrences in a stream. -/
def bump_by (ts : List Token) (e : Token) : Token :=
  { e with count := e.count + ts.countP (tok_match e.idx e.txt) }

/-- Distinctness of table keys: position or word differ. -/
def key_ne (a b : Token) : Prop := ¬(a.idx = b.idx ∧ a.txt = b.txt)

/-- Mapping a function that fixes every member is the identity. -/
theorem list_map_id_of_mem {α : Type} (f : α → α) (l : List α)
    (h : ∀ a ∈ l, f a = a) : l.map f = l := by
  induction l with
  | nil => rfl
  | cons a l ih =>
    rw [List.map_cons, h a (List.mem_cons_self a l),
      ih (fun b hb => h b (List.mem_cons_of_mem a hb))]

/-- Two maps agreeing on members are equal. -/
theorem list_map_congr_of_mem {α β : Type} (f g : α → β) (l : List α)
    (h : ∀ a ∈ l, f a = g a) : l.map f = l.map g := by
  induction l with
  | nil => rfl
  | cons a l ih =>
    rw [List.map_cons, List.map_cons, h a (List.mem_cons_self a l),
      ih (fun b hb => h b (List.mem_cons_of_mem a hb))]

/-- With distinct keys, updating with a present key bumps exactly the
matching entry. -/
theorem update_saved_tokens_present (saved : List Token) (t : Token)
    (hmem : ∃ e ∈ saved, e.idx = t.idx ∧ e.txt = t.txt)
    (hdist : saved.Pairwise key_ne) :
    update_saved_tokens saved t =
      saved.map (fun e => if e.idx = t.idx ∧ e.txt = t.txt then
        { e with count := e.count + 1 } else e) := by
  induction saved with
  | nil =>
    obtain ⟨e, he, _⟩ := hmem
    cases he
  | cons s rest ih =>
    by_cases hst : s.idx = t.idx ∧ s.txt = t.txt
    · rw [update_saved_tokens, if_pos hst, List.map_cons, if_pos hst]
      congr 1
      symm
      apply list_map_id_of_mem
      intro e he
      rw [if_neg]
      intro hek
      have hne := (List.pairwise_cons.mp hdist).1 e he
      exact hne ⟨hst.1.trans hek.1.symm, hst.2.trans hek.2.symm⟩
    · rw [update_saved_tokens, if_neg hst, List.map_cons, if_neg hst]
      congr 1
      apply ih
      · obtain ⟨e, he, hek⟩ := hmem
        rcases List.mem_cons.mp he with rfl | he'
        · exact absurd hek hst
        · exact ⟨e, he', hek⟩
      · exact (List.pairwise_cons.mp hdist).2

/-- Updating with an absent key appends the token. -/
theorem update_saved_tokens_absent (saved : List Token) (t : Token)
    (h : ∀ e ∈ saved, ¬(e.idx = t.idx ∧ e.txt = t.txt)) :
    update_saved_tokens saved t = saved ++ [t] := by
  induction saved with
  | nil => rfl
  | cons s rest ih =>
    rw [update_saved_tokens, if_neg (h s (List.mem_cons_self s rest)),
      ih (fun e he => h e (List.mem_cons_of_mem s he))]
    rfl

/-- The conditional bump preserves the key fields. -/
theorem bump_if_idx (t e : Token) :
    (if e.idx = t.idx ∧ e.txt = t.txt then
      { e with count := e.count + 1 } else e).idx = e.idx := by
  split <;> rfl

/-- The conditional bump preserves the word field. -/
theorem bump_if_txt (t e : Token) :
    (if e.idx = t.idx ∧ e.txt = t.txt then
      { e with count := e.count + 1 } else e).txt = e.txt := by
  split <;> rfl

/-- Folding a token stream into a distinct-key table bumps every existing
entry by its number of occurrences in the stream, and appends some tail
of new entries. -/
theorem foldl_update_bump : ∀ (ts saved : List Token), saved.Pairwise key_ne →
    ∃ tail, ts.foldl update_saved_tokens saved = saved.map (bump_by ts) ++ tail := by
  intro ts
  induction ts with
  | nil =>
    intro saved _
    refine ⟨[], ?_⟩
    have hid : saved.map (bump_by []) = saved :=
      list_map_id_of_mem _ _ (fun a _ => by simp [bump_by])
    simp [hid]
  | cons t ts ih =>
    intro saved hdist
    rw [List.foldl_cons]
    by_cases hmem : ∃ e ∈ saved, e.idx = t.idx ∧ e.txt = t.txt
    · rw [update_saved_tokens_present saved t hmem hdist]
      have hdist1 : (saved.map (fun e => if e.idx = t.idx ∧ e.txt = t.txt then
          { e with count := e.count + 1 } else e)).Pairwise key_ne := by
        rw [List.pairwise_map]
        refine hdist.imp ?_
        intro a b hab
        rw [key_ne, bump_if_idx, bump_if_idx, bump_if_txt, bump_if_txt]
        exact hab
      obtain ⟨tail, htail⟩ := ih _ hdist1
      refine ⟨tail, ?_⟩
      rw [htail]
      congr 1
      rw [List.map_map]
      apply list_map_congr_of_mem
      intro e _
      by_cases he : e.idx = t.idx ∧ e.txt = t.txt
      · have hm : tok_match e.idx e.txt t = true := by
          simp [tok_match, he.1, he.2]
        simp only [Function.comp_apply, if_pos he]
        simp [bump_by, List.countP_cons, hm, Token.mk.injEq]
        omega
      · have hm : tok_match e.idx e.txt t = false := by
          simp only [tok_match, Bool.and_eq_false_iff]
          rcases Decidable.em (t.idx = e.idx) with h1 | h1
          · right
            simp only [beq_eq_false_iff_ne, ne_eq]
            intro h2
            exact he ⟨h1.symm, h2.symm⟩
          · left
            simp only [beq_eq_false_iff_ne, ne_eq]
            exact h1
        simp only [Function.comp_apply, if_neg he, bump_by, List.countP_cons, hm]
        simp
    · push_neg at hmem
      have hmem' : ∀ e ∈ saved, ¬(e.idx = t.idx ∧ e.txt = t.txt) := by
        intro e he hek
        exact hmem e he hek.1 hek.2
      rw [update_saved_tokens_absent saved t hmem']
      have hdist2 : (saved ++ [t]).Pairwise key_ne := by
        rw [List.pairwise_append]
        refine ⟨hdist, List.pairwise_singleton _ _, ?_⟩
        intro a ha b hb
        rcases List.mem_singleton.mp hb with rfl
        exact hmem' a ha
      obtain ⟨tail, htail⟩ := ih _ hdist2
      refine ⟨bump_by ts t :: tail, ?_⟩
      rw [htail, List.map_append]
      have hagree : saved.map (bump_by ts) = saved.map (bump_by (t :: ts)) := by
        apply list_map_congr_of_mem
        intro e he
        have hm : tok_match e.idx e.txt t = false := by
          simp only [tok_match, Bool.and_eq_false_iff]
          rcases Decidable.em (t.idx = e.idx) with h1 | h1
          · right
            simp only [beq_eq_false_iff_ne, ne_eq]
            intro h2
            exact hmem' e he ⟨h1.symm, h2.symm⟩
          · left
            simp only [beq_eq_false_iff_ne, ne_eq]
            exact h1
        simp [bump_by, List.countP_cons, hm]
      rw [hagree]
      simp

/-- Folding a stream of pairwise-fresh tokens that are also fresh for the
table appends them all unchanged. -/
theorem foldl_update_fresh : ∀ (ts saved : List Token), ts.Pairwise key_ne →
    (∀ e ∈ saved, ∀ u ∈ ts, ¬(e.idx = u.idx ∧ e.txt = u.txt)) →
    ts.foldl update_saved_tokens saved = saved ++ ts := by
  intro ts
  induction ts with
  | nil => intro saved _ _; simp
  | cons t ts ih =>
    intro saved hdist hdisj
    rw [List.foldl_cons,
      update_saved_tokens_absent saved t
        (fun e he => hdisj e he t (List.mem_cons_self t ts))]
    rw [ih (saved ++ [t]) (List.pairwise_cons.mp hdist).2 ?_]
    · simp
    intro e he u hu
    rcases List.mem_append.mp he with he' | he'
    · exact hdisj e he' u (List.mem_cons_of_mem t hu)
    · rcases List.mem_singleton.mp he' with rfl
      exact (List.pairwise_cons.mp hdist).1 u hu

/-- The per-file nested fold equals one fold over the whole stream. -/
theorem build_saved_eq_all : ∀ (files : List MFile) (saved : List Token),
    files.foldl (fun s f => (file_tokens f).foldl update_saved_tokens s) saved =
      (all_tokens files).foldl update_saved_tokens saved := by
  intro files
  induction files with
  | nil => intro saved; rfl
  | cons f fs ih =>
    intro saved
    rw [List.foldl_cons, all_tokens, List.foldl_append]
    exact ih _

/-- Every token of `tokens_from n ws` has position at least `n`. -/
theorem tokens_from_idx_ge : ∀ (ws : List String) (n : Nat) (t : Token),
    t ∈ tokens_from n ws → n ≤ t.idx := by
  intro ws
  induction ws with
  | nil => intro n t ht; cases ht
  | cons w ws ih =>
    intro n t ht
    rcases List.mem_cons.mp ht with rfl | ht'
    · exact Nat.le_refl n
    · exact Nat.le_of_succ_le (ih (n + 1) t ht')

/-- One file's tokens have pairwise distinct keys: positions increase. -/
theorem tokens_from_pairwise : ∀ (ws : List String) (n : Nat),
    (tokens_from n ws).Pairwise key_ne := by
  intro ws
  induction ws with
  | nil => intro n; exact List.Pairwise.nil
  | cons w ws ih =>
    intro n
    rw [tokens_from, List.pairwise_cons]
    refine ⟨?_, ih (n + 1)⟩
    intro t ht hkey
    have h1 : n = t.idx := hkey.1
    have h2 := tokens_from_idx_ge ws (n + 1) t ht
    omega

/-- Entry `i` of one file's token stream. -/
theorem tokens_from_get? : ∀ (ws : List String) (n i : Nat),
    (tokens_from n ws).get? i = (ws.get? i).map (fun w => ⟨n + i, w, 1⟩) := by
  intro ws
  induction ws with
  | nil => intro n i; rfl
  | cons w ws ih =>
    intro n i
    cases i with
    | zero => rfl
    | succ i' =>
      rw [tokens_from]
      show (tokens_from (n + 1) ws).get? i' = _
      rw [ih (n + 1) i']
      show _ = (ws.get? i').map (fun w => ⟨n + (i' + 1), w, 1⟩)
      have : n + 1 + i' = n + (i' + 1) := by omega
      rw [this]

/-- One file contributes one token per position. -/
theorem tokens_from_length : ∀ (ws : List String) (n : Nat),
    (tokens_from n ws).length = ws.length := by
  intro ws
  induction ws with
  | nil => intro n; rfl
  | cons w ws ih => intro n; simp [tokens_from, ih]

/-- The words of one file's token stream are the split title. -/
theorem tokens_from_map_txt : ∀ (ws : List String) (n : Nat),
    (tokens_from n ws).map Token.txt = ws := by
  intro ws
  induction ws with
  | nil => intro n; rfl
  | cons w ws ih => intro n; simp [tokens_from, ih]

/-- How often a key occurs in one file's token stream: once when the
file has that word at that position, never otherwise. -/
theorem tokens_from_countP : ∀ (ws : List String) (n i : Nat) (w : String),
    (tokens_from n ws).countP (tok_match i w) =
      if ws.get? (i - n) = some w ∧ n ≤ i then 1 else 0 := by
  intro ws
  induction ws with
  | nil =>
    intro n i w
    simp [tokens_from]
  | cons w' ws ih =>
    intro n i w
    rw [tokens_from, List.countP_cons, ih (n + 1) i w]
    rcases Nat.lt_trichotomy i n with hni | hni | hni
    · have h1 : ¬(n + 1 ≤ i) := by omega
      have h2 : ¬(n ≤ i) := by omega
      have hm : tok_match i w ⟨n, w', 1⟩ = false := by
        simp only [tok_match, Bool.and_eq_false_iff]
        left
        simp only [beq_eq_false_iff_ne, ne_eq]
        omega
      simp [hm, h1, h2]
    · subst hni
      have h1 : ¬(i + 1 ≤ i) := by omega
      have hm : tok_match i w ⟨i, w', 1⟩ = (w' == w) := by
        simp [tok_match]
      rw [hm]
      cases hw : w' == w with
      | true =>
        have : w' = w := by simpa using hw
        subst this
        simp [h1, Nat.sub_self]
      | false =>
        have : ¬(w' = w) := by simpa using hw
        have hg : (w' :: ws).get? (i - i) = some w ↔ False := by
          simp [Nat.sub_self, this]
        simp [h1, Nat.sub_self, this]
    · have h1 : n + 1 ≤ i := by omega
      have h2 : n ≤ i := by omega
      have hm : tok_match i w ⟨n, w', 1⟩ = false := by
        simp only [tok_match, Bool.and_eq_false_iff]
        left
        simp only [beq_eq_false_iff_ne, ne_eq]
        omega
      have hg : (w' :: ws)[i - n]? = ws[i - (n + 1)]? := by
        have heq : i - n = (i - (n + 1)) + 1 := by omega
        rw [heq]
        simp
      simp [hm, h1, h2, hg]

/-- Key occurrences over the whole stream count the files having that
word at that position. -/
theorem all_tokens_countP : ∀ (files : List MFile) (i : Nat) (w : String),
    (all_tokens files).countP (tok_match i w) = occ_count files i w := by
  intro files
  induction files with
  | nil => intro i w; rfl
  | cons f fs ih =>
    intro i w
    rw [all_tokens, List.countP_append, ih i w]
    rw [show file_tokens f = tokens_from 0 (split_title f) from rfl,
      tokens_from_countP (split_title f) 0 i w]
    show _ = List.countP (fun f => (split_title f).get? i == some w) (f :: fs)
    rw [List.countP_cons]
    have hocc : occ_count fs i w =
        List.countP (fun f => (split_title f).get? i == some w) fs := rfl
    rw [hocc]
    cases hg : (split_title f).get? i == some w with
    | true =>
      have hgp : (split_title f).get? i = some w := by simpa using hg
      simp only [List.get?_eq_getElem?] at hgp ⊢
      simp [hgp]
      omega
    | false =>
      have hgp : ¬((split_title f).get? i = some w) := by simpa using hg
      simp only [List.get?_eq_getElem?] at hgp ⊢
      simp [hgp]

/-- Position of the first low-count entry of the saved table. -/
theorem first_low_idx_spec : ∀ (l : List Token) (n k : Nat) (tk : Token),
    l.get? k = some tk → tk.count ≤ 1 →
    (∀ i t, i < k → l.get? i = some t → ¬(t.count ≤ 1)) →
    first_low_idx l n = some (n + k) := by
  intro l
  induction l with
  | nil => intro n k tk h; cases h
  | cons a l ih =>
    intro n k tk hk hc hlt
    cases k with
    | zero =>
      have : a = tk := by
        have : some a = some tk := hk
        exact Option.some.inj this
      subst this
      simp [first_low_idx, hc]
    | succ k' =>
      have h0 : ¬(a.count ≤ 1) := hlt 0 a (Nat.succ_pos k') rfl
      rw [first_low_idx, if_neg h0]
      have := ih (n + 1) k' tk hk hc
        (fun i t hi hg => hlt (i + 1) t (Nat.succ_lt_succ hi) hg)
      rw [this]
      congr 1
      omega

/-- The occurrence count over a file list whose head has the counted word
at the counted position. -/
theorem occ_count_cons_self (f0 : MFile) (fs : List MFile) (i : Nat)
    (hi : i < (split_title f0).length) :
    occ_count (f0 :: fs) i ((split_title f0).get ⟨i, hi⟩) =
      occ_count fs i ((split_title f0).get ⟨i, hi⟩) + 1 := by
  show List.countP _ (f0 :: fs) = _
  rw [List.countP_cons]
  congr 1
  have hg : (split_title f0).get? i = some ((split_title f0).get ⟨i, hi⟩) :=
    List.get?_eq_get hi
  simp [hg]

/-- Reduction of the prefix builder once the low-count scan's result is
known. -/
theorem get_file_name_pfx_eq (files : List MFile) (k : Nat)
    (h : first_low_idx (build_saved files) 0 = some k) :
    get_file_name_pfx files =
      (((build_saved files).take k).map (fun t => t.txt ++ " ")).foldl (· ++ ·) "" := by
  cases k with
  | zero => simp [get_file_name_pfx, h]
  | succ j => simp [get_file_name_pfx, h]

/-- Claim C1: on a nonempty file list whose normalized split titles share
the same tokens at every position below `shared.length` (each such token
occurring in more than one file) while every file's token at position
`shared.length` occurs in only one file, prefix discovery returns exactly
the shared tokens, each followed by one space; with `shared = []` this is
the empty string. -/
theorem file_name_pfx_of_shared_tokens (files : List MFile) (shared : List String)
    (hne : files ≠ [])
    (hsh : ∀ f ∈ files, ∀ i, (hi : i < shared.length) →
      (split_title f).get? i = some (shared.get ⟨i, hi⟩))
    (hmul : ∀ i, (hi : i < shared.length) →
      1 < occ_count files i (shared.get ⟨i, hi⟩))
    (hlast : ∀ f ∈ files, shared.length < (split_title f).length ∧
      occ_count files shared.length ((split_title f).getD shared.length "") = 1) :
    get_file_name_pfx files = String.join (shared.map (fun w => w ++ " ")) := by
  obtain ⟨f0, fs, rfl⟩ : ∃ f0 fs, files = f0 :: fs := by
    cases files with
    | nil => exact absurd rfl hne
    | cons f0 fs => exact ⟨f0, fs, rfl⟩
  have hmem0 : f0 ∈ f0 :: fs := List.mem_cons_self f0 fs
  have hk_lt : shared.length < (split_title f0).length := (hlast f0 hmem0).1
  obtain ⟨tail, hsaved⟩ :
      ∃ tail, build_saved (f0 :: fs) =
        (file_tokens f0).map (bump_by (all_tokens fs)) ++ tail := by
    have h1 : build_saved (f0 :: fs) =
        (all_tokens (f0 :: fs)).foldl update_saved_tokens [] :=
      build_saved_eq_all (f0 :: fs) []
    rw [show all_tokens (f0 :: fs) = file_tokens f0 ++ all_tokens fs from rfl,
      List.foldl_append] at h1
    rw [foldl_update_fresh (file_tokens f0) [] (tokens_from_pairwise _ 0)
      (by intro e he; cases he)] at h1
    rw [List.nil_append] at h1
    obtain ⟨tail, ht⟩ := foldl_update_bump (all_tokens fs) (file_tokens f0)
      (tokens_from_pairwise _ 0)
    exact ⟨tail, h1.trans ht⟩
  have hT0len : (file_tokens f0).length = (split_title f0).length := by
    rw [show file_tokens f0 = tokens_from 0 (split_title f0) from rfl,
      tokens_from_length]
  have hentry : ∀ i, (hi : i < (split_title f0).length) →
      (build_saved (f0 :: fs)).get? i =
        some ⟨i, (split_title f0).get ⟨i, hi⟩,
          occ_count (f0 :: fs) i ((split_title f0).get ⟨i, hi⟩)⟩ := by
    intro i hi
    rw [hsaved]
    have hlen_map : i < ((file_tokens f0).map (bump_by (all_tokens fs))).length := by
      rw [List.length_map, hT0len]
      exact hi
    rw [List.get?_append hlen_map, List.get?_map]
    rw [show file_tokens f0 = tokens_from 0 (split_title f0) from rfl,
      tokens_from_get?, List.get?_eq_get hi]
    show some (bump_by (all_tokens fs) ⟨0 + i, (split_title f0).get ⟨i, hi⟩, 1⟩) = _
    rw [Option.some.injEq]
    show Token.mk (0 + i) ((split_title f0).get ⟨i, hi⟩)
      (1 + (all_tokens fs).countP
        (tok_match (Token.mk (0 + i) ((split_title f0).get ⟨i, hi⟩) 1).idx
          (Token.mk (0 + i) ((split_title f0).get ⟨i, hi⟩) 1).txt)) = _
    simp only [Nat.zero_add]
    rw [all_tokens_countP fs i ((split_title f0).get ⟨i, hi⟩),
      occ_count_cons_self f0 fs i hi,
      Nat.add_comm 1 (occ_count fs i ((split_title f0).get ⟨i, hi⟩))]
  have hbig : ∀ i t, i < shared.length →
      (build_saved (f0 :: fs)).get? i = some t → ¬(t.count ≤ 1) := by
    intro i t hik hget
    have hi' : i < (split_title f0).length := Nat.lt_trans hik hk_lt
    rw [hentry i hi'] at hget
    have ht := Option.some.inj hget
    have hw : (split_title f0).get ⟨i, hi'⟩ = shared.get ⟨i, hik⟩ := by
      have h1 := hsh f0 hmem0 i hik
      rw [List.get?_eq_get hi'] at h1
      exact Option.some.inj h1
    subst ht
    show ¬(occ_count (f0 :: fs) i ((split_title f0).get ⟨i, hi'⟩) ≤ 1)
    rw [hw]
    have := hmul i hik
    omega
  have hkc : occ_count (f0 :: fs) shared.length
      ((split_title f0).get ⟨shared.length, hk_lt⟩) = 1 := by
    have h2 := (hlast f0 hmem0).2
    have hgd : (split_title f0).getD shared.length "" =
        (split_title f0).get ⟨shared.length, hk_lt⟩ := by
      show ((split_title f0).get? shared.length).getD "" = _
      rw [List.get?_eq_get hk_lt]
      rfl
    rw [hgd] at h2
    exact h2
  have hfli : first_low_idx (build_saved (f0 :: fs)) 0 = some shared.length := by
    have h := first_low_idx_spec (build_saved (f0 :: fs)) 0 shared.length
      ⟨shared.length, (split_title f0).get ⟨shared.length, hk_lt⟩,
        occ_count (f0 :: fs) shared.length
          ((split_title f0).get ⟨shared.length, hk_lt⟩)⟩
      (hentry shared.length hk_lt)
      (by show occ_count _ _ _ ≤ 1; rw [hkc])
      hbig
    simpa using h
  have hw0take : (split_title f0).take shared.length = shared := by
    apply List.ext
    intro n
    by_cases hn : n < shared.length
    · rw [List.get?_take hn, hsh f0 hmem0 n hn, List.get?_eq_get hn]
    · rw [List.get?_eq_none.mpr, List.get?_eq_none.mpr]
      · omega
      · rw [List.length_take]
        omega
  have htake : ((build_saved (f0 :: fs)).take shared.length).map
      (fun t => t.txt ++ " ") = shared.map (fun w => w ++ " ") := by
    rw [hsaved, List.take_append_of_le_length
      (by rw [List.length_map, hT0len]; omega),
      List.map_take, List.map_map]
    have hcomp : ((fun t : Token => t.txt ++ " ") ∘ bump_by (all_tokens fs)) =
        (fun t : Token => t.txt ++ " ") := by
      funext t
      rfl
    rw [hcomp]
    rw [show (fun t : Token => t.txt ++ " ") =
      ((fun w => w ++ " ") ∘ Token.txt) from rfl, ← List.map_map, ← List.map_take]
    rw [show file_tokens f0 = tokens_from 0 (split_title f0) from rfl]
    rw [List.map_take, tokens_from_map_txt, ← List.map_take, hw0take]
  rw [get_file_name_pfx_eq (f0 :: fs) shared.length hfli, htake]
  rfl

/-- Witness for C1: two files sharing the leading words "Show Name"
yield the prefix "Show Name ". -/
theorem file_name_pfx_of_shared_tokens_witness :
    get_file_name_pfx
        [⟨"Show Name S01E01.mkv", .MEDIA⟩, ⟨"Show Name S01E02.mkv", .MEDIA⟩] =
      String.join (["Show", "Name"].map (fun w => w ++ " ")) :=
  file_name_pfx_of_shared_tokens
    [⟨"Show Name S01E01.mkv", .MEDIA⟩, ⟨"Show Name S01E02.mkv", .MEDIA⟩]
    ["Show", "Name"]
    (by decide) (by decide) (by decide) (by decide)
